import Mathlib

/-!
# Soar front end: lexer and assignment parser

A shallow embedding of `src/lexer.h`, `src/lexer.cpp`, `src/Parser.h`,
`src/Parser.cpp` and the driver `src/main.cpp`.

* A `std::string` is a `String`; scanning works on its list of characters.
  Every character outside the ASCII classes of the token pattern is matched
  by no alternative, so it plays the part of any byte the pattern skips.
* `std::regex` is the ECMAScript grammar: `regex_search` takes the leftmost
  position at which the pattern matches, an alternation takes its first
  alternative that matches there, and `*` / `+` are greedy.
* `ASTNode*` is an `Option ASTNode` (`none` is `nullptr`); a node owns its
  children, so the tree is a value.
* `tokens[index]` on a `std::vector` is defined only below `size()`; the
  parser model records every index it reads and stops with
  `Outcome.undefined` at a read outside the vector.
* The cursor `int &index` is a natural number: cursors are non-negative and
  token vectors are far shorter than `INT_MAX`, so `index++` never wraps.
-/

namespace Soar

/-! ## lexer.h -/

/-- The enumeration `TokenType` of `lexer.h`. -/
inductive TokenType where
  | DATA_TYPE
  | IDENTIFIER
  | ASSIGN_OP
  | NUMBER
  | OPERATOR
  | EOF_TOK
  deriving DecidableEq, Repr

/-- The record `Token` of `lexer.h`. -/
structure Token where
  type : TokenType
  value : String
  deriving DecidableEq, Repr

/-! ## lexer.cpp: the token pattern -/

/-- Character class `[a-zA-Z_]`. -/
def isIdentStart (c : Char) : Bool :=
  ('a' ≤ c && c ≤ 'z') || ('A' ≤ c && c ≤ 'Z') || c == '_'

/-- Character class `\d` (classic locale: the ten ASCII digits). -/
def isDigit (c : Char) : Bool :=
  '0' ≤ c && c ≤ '9'

/-- Character class `[a-zA-Z0-9_]`. -/
def isIdentCont (c : Char) : Bool :=
  ('a' ≤ c && c ≤ 'z') || ('A' ≤ c && c ≤ 'Z') || ('0' ≤ c && c ≤ '9') || c == '_'

/-- Character class `[=+<]`. -/
def isOperatorChar (c : Char) : Bool :=
  c == '=' || c == '+' || c == '<'

/-- A successful `std::smatch` of the token pattern: the text of the four
capture groups (`match.str(k)`, empty for a group that took no part) and the
unmatched rest of the input (`match.suffix()`). -/
structure SMatch where
  str1 : List Char
  str2 : List Char
  str3 : List Char
  str4 : List Char
  suffix : List Char
  deriving DecidableEq, Repr

/-- Group 1, `(int|float|if)`, at the start of `cs`: the literals are tried
from left to right. Returns the matched text and the rest. -/
def matchKeyword (cs : List Char) : Option (List Char × List Char) :=
  if "int".toList.isPrefixOf cs then some ("int".toList, cs.drop 3)
  else if "float".toList.isPrefixOf cs then some ("float".toList, cs.drop 5)
  else if "if".toList.isPrefixOf cs then some ("if".toList, cs.drop 2)
  else none

/-- Group 2, `([a-zA-Z_][a-zA-Z0-9_]*)`, at the start of `cs` (greedy star). -/
def matchIdentifier : List Char → Option (List Char × List Char)
  | [] => none
  | c :: rest =>
    if isIdentStart c then
      some (c :: rest.takeWhile isIdentCont, rest.dropWhile isIdentCont)
    else none

/-- Group 3, `(\d+)`, at the start of `cs` (greedy plus). -/
def matchNumber : List Char → Option (List Char × List Char)
  | [] => none
  | c :: rest =>
    if isDigit c then
      some (c :: rest.takeWhile isDigit, rest.dropWhile isDigit)
    else none

/-- Group 4, `([=+<])`, at the start of `cs`. -/
def matchOperator : List Char → Option (List Char × List Char)
  | [] => none
  | c :: rest => if isOperatorChar c then some ([c], rest) else none

/-- The whole pattern `(int|float|if)|([a-zA-Z_][a-zA-Z0-9_]*)|(\d+)|([=+<])`
anchored at the start of `cs`: the first alternative that matches wins. -/
def matchAt (cs : List Char) : Option SMatch :=
  match matchKeyword cs with
  | some (m, rest) => some ⟨m, [], [], [], rest⟩
  | none =>
    match matchIdentifier cs with
    | some (m, rest) => some ⟨[], m, [], [], rest⟩
    | none =>
      match matchNumber cs with
      | some (m, rest) => some ⟨[], [], m, [], rest⟩
      | none =>
        match matchOperator cs with
        | some (m, rest) => some ⟨[], [], [], m, rest⟩
        | none => none

/-- The call `std::regex_search(searchStart, code.cend(), match, tokenRegex)`:
the match at the leftmost position that has one, `none` when there is none. -/
def regexSearch : List Char → Option SMatch
  | [] => none
  | c :: cs =>
    match matchAt (c :: cs) with
    | some m => some m
    | none => regexSearch cs

/-! ## lexer.cpp: the scanning loop -/

/-- Lines 12 to 15 of `lexer.cpp`: the `if` / `else if` chain that appends
one token for the first non-empty capture group. -/
def pushToken (tokens : List Token) (m : SMatch) : List Token :=
  if !m.str1.isEmpty then tokens ++ [⟨TokenType.DATA_TYPE, String.mk m.str1⟩]
  else if !m.str2.isEmpty then tokens ++ [⟨TokenType.IDENTIFIER, String.mk m.str2⟩]
  else if !m.str3.isEmpty then tokens ++ [⟨TokenType.NUMBER, String.mk m.str3⟩]
  else if !m.str4.isEmpty then tokens ++ [⟨TokenType.OPERATOR, String.mk m.str4⟩]
  else tokens

/-- The `while` loop of `lexer.cpp`, lines 11 to 17: `searchStart` is the
input not yet scanned and `tokens` the vector built so far. Each round
continues from `match.suffix().first`; it terminates because every match
starts at or after `searchStart` and is non-empty. -/
def lexLoop (searchStart : List Char) (tokens : List Token) : List Token :=
  match h : regexSearch searchStart with
  | none => tokens
  | some m => lexLoop m.suffix (pushToken tokens m)
termination_by searchStart.length
decreasing_by
  clear tokens
  induction searchStart generalizing m with
  | nil => simp [regexSearch] at h
  | cons c cs ih =>
    unfold regexSearch at h
    split at h
    · next m0 hm =>
      cases h
      have hd : ∀ (p : Char → Bool) (r : List Char), (r.dropWhile p).length ≤ r.length :=
        fun p r => (List.dropWhile_sublist p).length_le
      unfold matchAt at hm
      split at hm
      · next mm rest hk =>
        cases hm
        simp only [matchKeyword] at hk
        split at hk
        · cases hk; simp only [List.length_drop, List.length_cons]; omega
        · split at hk
          · cases hk; simp only [List.length_drop, List.length_cons]; omega
          · split at hk
            · cases hk; simp only [List.length_drop, List.length_cons]; omega
            · cases hk
      · split at hm
        · next mm rest hi =>
          cases hm
          simp only [matchIdentifier] at hi
          split at hi
          · cases hi; exact Nat.lt_succ_of_le (hd _ _)
          · cases hi
        · split at hm
          · next mm rest hn =>
            cases hm
            simp only [matchNumber] at hn
            split at hn
            · cases hn; exact Nat.lt_succ_of_le (hd _ _)
            · cases hn
          · split at hm
            · next mm rest ho =>
              cases hm
              simp only [matchOperator] at ho
              split at ho
              · cases ho; exact Nat.lt_succ_self _
              · cases ho
            · cases hm
    · exact Nat.lt_succ_of_lt (ih m h)

/-- The function `lexer` of `lexer.cpp`. -/
def lexer (code : String) : List Token :=
  lexLoop code.toList [] ++ [⟨TokenType.EOF_TOK, ""⟩]

/-! ## Parser.h -/

/-- The record `ASTNode` of `Parser.h`: a label and the owned children. -/
inductive ASTNode where
  | mk (value : String) (children : List ASTNode)

/-- Field `value` of an `ASTNode`. -/
def ASTNode.value : ASTNode → String
  | .mk v _ => v

/-- Field `children` of an `ASTNode`. -/
def ASTNode.children : ASTNode → List ASTNode
  | .mk _ cs => cs

/-- The constructor `ASTNode(std::string val)`: a node without children. -/
def ASTNode.new (val : String) : ASTNode :=
  .mk val []

/-- The statement `node->children.push_back(child)`. -/
def ASTNode.pushChild (node child : ASTNode) : ASTNode :=
  .mk node.value (node.children ++ [child])

/-! ## Parser.cpp -/

/-- How a call of `parseAssignment` ends: it returns a pointer (`none` is
`nullptr`) and leaves the cursor at `index`, or it has read `tokens[k]` with
`k` outside the vector, after which the behaviour is undefined. -/
inductive Outcome where
  | undefined
  | returned (root : Option ASTNode) (index : Nat)

/-- A run of `parseAssignment`: the indices at which it evaluated
`tokens[...]`, in order, and how it ended. -/
structure ParseRun where
  reads : List Nat
  outcome : Outcome

/-- The function `parseAssignment` of `Parser.cpp`. Line 5 reads
`tokens[index]`, line 7 reads it again and increments, line 8 increments,
line 9 reads `tokens[index]` at the cursor two further on and increments. -/
def parseAssignment (tokens : List Token) (index : Nat) : ParseRun :=
  match tokens[index]? with
  | none => ⟨[index], .undefined⟩
  | some tok =>
    if tok.type = TokenType.IDENTIFIER then
      let assignNode := ASTNode.new "="
      let assignNode := assignNode.pushChild (ASTNode.new tok.value)
      let index1 := index + 1
      let index2 := index1 + 1
      match tokens[index2]? with
      | none => ⟨[index, index, index2], .undefined⟩
      | some num =>
        let assignNode := assignNode.pushChild (ASTNode.new num.value)
        ⟨[index, index, index2], .returned (some assignNode) (index2 + 1)⟩
    else ⟨[index], .returned none index⟩

/-! ## main.cpp -/

/-- The source text compiled by the driver, `main.cpp` line 8. -/
def mainCode : String := "int a = 5; if (a > 3) \x7b a = a + 1; \x7d"

/-- Lines 11 to 15 of `main.cpp`: tokenize, then parse from cursor 0. -/
def mainParse : ParseRun :=
  parseAssignment (lexer mainCode) 0

/-- The token alphabet `[a-zA-Z0-9_=+<]`: the characters that some
alternative of the token pattern can match. -/
def isTokenChar (c : Char) : Bool :=
  isIdentCont c || isOperatorChar c

/-- The reserved keywords, the literals of group 1. -/
def keywords : List String := ["int", "float", "if"]

/-- A text that the identifier pattern `[a-zA-Z_][a-zA-Z0-9_]*` matches as a
whole. -/
def isIdentifierText (x : String) : Bool :=
  match x.toList with
  | [] => false
  | c :: rest => isIdentStart c && rest.all isIdentCont

/-- A text that begins with one of the reserved keywords. -/
def beginsWithKeyword (x : String) : Bool :=
  keywords.any (fun k => k.toList.isPrefixOf x.toList)

/-- A non-empty text of decimal digits. -/
def isNumberText (n : String) : Bool :=
  !n.toList.isEmpty && n.toList.all isDigit

/-- The operator texts, the characters of group 4. -/
def operators : List String := ["=", "+", "<"]

/-- The `while` loop of `lexer.cpp`, lines 11 to 17, with a bound on the
number of times its condition is evaluated: `none` when `fuel` evaluations
were not enough for `regex_search` to fail. -/
def lexLoopFuel : Nat → List Char → List Token → Option (List Token)
  | 0, _, _ => none
  | fuel + 1, searchStart, tokens =>
    match regexSearch searchStart with
    | none => some tokens
    | some m => lexLoopFuel fuel m.suffix (pushToken tokens m)

/-- The whole text of a match, `match.str(0)`: at most one group took part. -/
def SMatch.str0 (m : SMatch) : List Char :=
  m.str1 ++ m.str2 ++ m.str3 ++ m.str4

/-! ## The scanning loop, one round at a time -/

theorem lexLoop_none {cs : List Char} (tokens : List Token)
    (h : regexSearch cs = none) : lexLoop cs tokens = tokens := by
  rw [lexLoop]
  split
  · rfl
  · next m hm => rw [h] at hm; cases hm

theorem lexLoop_some {cs : List Char} {m : SMatch} (tokens : List Token)
    (h : regexSearch cs = some m) :
    lexLoop cs tokens = lexLoop m.suffix (pushToken tokens m) := by
  rw [lexLoop]
  split
  · next hn => rw [h] at hn; cases hn
  · next m0 hm => rw [h] at hm; cases hm; rfl

theorem matchAt_nil : matchAt [] = none := by
  decide

theorem regexSearch_of_matchAt {cs : List Char} {m : SMatch}
    (h : matchAt cs = some m) : regexSearch cs = some m := by
  cases cs with
  | nil => rw [matchAt_nil] at h; cases h
  | cons c cs => simp [regexSearch, h]

theorem regexSearch_skip {c : Char} {cs : List Char}
    (h : matchAt (c :: cs) = none) : regexSearch (c :: cs) = regexSearch cs := by
  simp [regexSearch, h]

theorem lexLoop_nil (tokens : List Token) : lexLoop [] tokens = tokens :=
  lexLoop_none tokens rfl

theorem lexLoop_match {cs : List Char} {m : SMatch} (tokens : List Token)
    (h : matchAt cs = some m) :
    lexLoop cs tokens = lexLoop m.suffix (pushToken tokens m) :=
  lexLoop_some tokens (regexSearch_of_matchAt h)

theorem lexLoop_skip {c : Char} {cs : List Char} (tokens : List Token)
    (h : matchAt (c :: cs) = none) : lexLoop (c :: cs) tokens = lexLoop cs tokens := by
  cases hr : regexSearch cs with
  | none =>
    rw [lexLoop_none tokens hr, lexLoop_none tokens ((regexSearch_skip h).trans hr)]
  | some m =>
    rw [lexLoop_some tokens hr, lexLoop_some tokens ((regexSearch_skip h).trans hr)]

/-! ## What one match looks like -/

theorem matchKeyword_some {cs m rest : List Char} (h : matchKeyword cs = some (m, rest)) :
    String.mk m ∈ keywords ∧ m ++ rest = cs := by
  simp only [matchKeyword] at h
  split at h
  · next hp =>
    cases h
    obtain ⟨t, rfl⟩ := List.isPrefixOf_iff_prefix.mp hp
    exact ⟨by decide, by simp⟩
  · split at h
    · next hp =>
      cases h
      obtain ⟨t, rfl⟩ := List.isPrefixOf_iff_prefix.mp hp
      exact ⟨by decide, by simp⟩
    · split at h
      · next hp =>
        cases h
        obtain ⟨t, rfl⟩ := List.isPrefixOf_iff_prefix.mp hp
        exact ⟨by decide, by simp⟩
      · cases h

theorem matchKeyword_none {cs : List Char} (h : matchKeyword cs = none) (k : String)
    (hk : k ∈ keywords) : ¬ k.toList <+: cs := by
  intro hp
  simp only [matchKeyword] at h
  simp only [keywords, List.mem_cons, List.mem_singleton, List.not_mem_nil, or_false] at hk
  split at h
  · cases h
  · next h1 =>
    split at h
    · cases h
    · next h2 =>
      split at h
      · cases h
      · next h3 =>
        rcases hk with rfl | rfl | rfl
        · exact h1 (List.isPrefixOf_iff_prefix.mpr hp)
        · exact h2 (List.isPrefixOf_iff_prefix.mpr hp)
        · exact h3 (List.isPrefixOf_iff_prefix.mpr hp)

/-- The four shapes of a match of the token pattern at the start of `cs`. -/
theorem matchAt_cases {cs : List Char} {m : SMatch} (h : matchAt cs = some m) :
    (∃ kw rest, matchKeyword cs = some (kw, rest) ∧ m = ⟨kw, [], [], [], rest⟩) ∨
    (∃ c rest, cs = c :: rest ∧ matchKeyword cs = none ∧ isIdentStart c = true ∧
      m = ⟨[], c :: rest.takeWhile isIdentCont, [], [], rest.dropWhile isIdentCont⟩) ∨
    (∃ c rest, cs = c :: rest ∧ matchKeyword cs = none ∧ isIdentStart c = false ∧
      isDigit c = true ∧
      m = ⟨[], [], c :: rest.takeWhile isDigit, [], rest.dropWhile isDigit⟩) ∨
    (∃ c rest, cs = c :: rest ∧ matchKeyword cs = none ∧ isIdentStart c = false ∧
      isDigit c = false ∧ isOperatorChar c = true ∧ m = ⟨[], [], [], [c], rest⟩) := by
  cases cs with
  | nil => rw [matchAt_nil] at h; cases h
  | cons c rest =>
    unfold matchAt at h
    split at h
    · next kw r hk => cases h; exact Or.inl ⟨kw, r, hk, rfl⟩
    · next hk =>
      right
      simp only [matchIdentifier, matchNumber, matchOperator] at h
      by_cases hi : isIdentStart c = true
      · simp only [hi, if_true] at h
        cases h
        exact Or.inl ⟨c, rest, rfl, hk, hi, rfl⟩
      · right
        simp only [hi] at h
        by_cases hd : isDigit c = true
        · simp only [hd, if_true] at h
          cases h
          exact Or.inl ⟨c, rest, rfl, hk, by simpa using hi, hd, rfl⟩
        · right
          simp only [hd] at h
          by_cases ho : isOperatorChar c = true
          · simp only [ho, if_true] at h
            cases h
            exact ⟨c, rest, rfl, hk, by simpa using hi, by simpa using hd, ho, rfl⟩
          · simp [ho] at h

theorem isIdentCont_eq (c : Char) : isIdentCont c = (isIdentStart c || isDigit c) := by
  simp only [isIdentCont, isIdentStart, isDigit]
  cases decide ('a' ≤ c) <;> cases decide (c ≤ 'z') <;> cases decide ('A' ≤ c) <;>
    cases decide (c ≤ 'Z') <;> cases decide ('0' ≤ c) <;> cases decide (c ≤ '9') <;>
    cases (c == '_') <;> rfl

theorem isTokenChar_of_identStart {c : Char} (h : isIdentStart c = true) :
    isTokenChar c = true := by
  simp [isTokenChar, isIdentCont_eq, h]

theorem isTokenChar_of_digit {c : Char} (h : isDigit c = true) : isTokenChar c = true := by
  simp [isTokenChar, isIdentCont_eq, h]

theorem isTokenChar_of_identCont {c : Char} (h : isIdentCont c = true) :
    isTokenChar c = true := by
  simp [isTokenChar, h]

theorem isTokenChar_of_operator {c : Char} (h : isOperatorChar c = true) :
    isTokenChar c = true := by
  simp [isTokenChar, h]

theorem isTokenChar_of_keyword {kw : List Char} (h : String.mk kw ∈ keywords) :
    ∀ c ∈ kw, isTokenChar c = true := by
  simp only [keywords, List.mem_cons, List.mem_singleton, List.not_mem_nil, or_false] at h
  have hkw : kw = "int".toList ∨ kw = "float".toList ∨ kw = "if".toList := by
    rcases h with h | h | h
    · exact Or.inl (congrArg String.data h)
    · exact Or.inr (Or.inl (congrArg String.data h))
    · exact Or.inr (Or.inr (congrArg String.data h))
  rcases hkw with rfl | rfl | rfl <;> decide

/-- A position at which the pattern does not match holds a character outside
the token alphabet. -/
theorem isTokenChar_of_matchAt_none {c : Char} {cs : List Char}
    (h : matchAt (c :: cs) = none) : isTokenChar c = false := by
  unfold matchAt at h
  split at h
  · cases h
  · simp only [matchIdentifier, matchNumber, matchOperator] at h
    by_cases hi : isIdentStart c = true
    · simp [hi] at h
    · by_cases hd : isDigit c = true
      · simp [hi, hd] at h
      · by_cases ho : isOperatorChar c = true
        · simp [hi, hd, ho] at h
        · simp only [Bool.not_eq_true] at hi hd ho
          simp [isTokenChar, isIdentCont_eq, hi, hd, ho]

/-- The token that the loop body appends for a match, with the facts about it
that the loop invariants need. -/
theorem pushToken_of_matchAt {cs : List Char} {m : SMatch} (h : matchAt cs = some m) :
    ∃ tok : Token, (∀ tokens, pushToken tokens m = tokens ++ [tok]) ∧
      tok.value.toList ≠ [] ∧ tok.value.toList ++ m.suffix = cs ∧
      (∀ c ∈ tok.value.toList, isTokenChar c = true) ∧
      tok.type ≠ TokenType.EOF_TOK ∧
      (tok.type = TokenType.IDENTIFIER → tok.value ∉ keywords) := by
  rcases matchAt_cases h with ⟨kw, rest, hk, rfl⟩ | ⟨c, rest, rfl, hk, hc, rfl⟩ |
    ⟨c, rest, rfl, hk, _, hc, rfl⟩ | ⟨c, rest, rfl, hk, _, _, hc, rfl⟩
  · obtain ⟨hmem, happ⟩ := matchKeyword_some hk
    have hne : kw ≠ [] := by
      rintro rfl
      revert hmem
      decide
    refine ⟨⟨TokenType.DATA_TYPE, String.mk kw⟩, ?_, hne, happ, isTokenChar_of_keyword hmem,
      by simp, by intro h; cases h⟩
    intro tokens
    simp [pushToken, hne]
  · refine ⟨⟨TokenType.IDENTIFIER, String.mk (c :: rest.takeWhile isIdentCont)⟩, ?_, by simp,
      by simp, ?_, by simp, ?_⟩
    · intro tokens
      simp [pushToken]
    · intro x hx
      rcases List.mem_cons.mp hx with rfl | hx
      · exact isTokenChar_of_identStart hc
      · exact isTokenChar_of_identCont (List.mem_takeWhile_imp hx)
    · intro _ hmem
      refine matchKeyword_none hk _ hmem ?_
      exact ⟨rest.dropWhile isIdentCont, by simp⟩
  · refine ⟨⟨TokenType.NUMBER, String.mk (c :: rest.takeWhile isDigit)⟩, ?_, by simp,
      by simp, ?_, by simp, by intro h; cases h⟩
    · intro tokens
      simp [pushToken]
    · intro x hx
      rcases List.mem_cons.mp hx with rfl | hx
      · exact isTokenChar_of_digit hc
      · exact isTokenChar_of_digit (List.mem_takeWhile_imp hx)
  · refine ⟨⟨TokenType.OPERATOR, String.mk [c]⟩, ?_, by simp, by simp, ?_, by simp,
      by intro h; cases h⟩
    · intro tokens
      simp [pushToken]
    · intro x hx
      rcases List.mem_cons.mp hx with rfl | hx
      · exact isTokenChar_of_operator hc
      · cases hx

theorem matchAt_suffix_lt {cs : List Char} {m : SMatch} (h : matchAt cs = some m) :
    m.suffix.length < cs.length := by
  obtain ⟨tok, _, hne, happ, _⟩ := pushToken_of_matchAt h
  have hlen := congrArg List.length happ
  rw [List.length_append] at hlen
  have hpos : 0 < tok.value.toList.length := List.length_pos.mpr hne
  omega

theorem pushToken_append {cs : List Char} {m : SMatch} (h : matchAt cs = some m)
    (tokens : List Token) : pushToken tokens m = tokens ++ pushToken [] m := by
  obtain ⟨tok, hpush, _⟩ := pushToken_of_matchAt h
  rw [hpush tokens, hpush []]
  rfl

/-- The loop only appends to the vector it was given. -/
theorem lexLoop_append (cs : List Char) (tokens : List Token) :
    lexLoop cs tokens = tokens ++ lexLoop cs [] := by
  obtain ⟨n, hn⟩ : ∃ n, cs.length = n := ⟨_, rfl⟩
  induction n using Nat.strong_induction_on generalizing cs tokens with
  | _ n ih =>
    cases cs with
    | nil => simp [lexLoop_nil]
    | cons c rest =>
      cases hm : matchAt (c :: rest) with
      | none =>
        rw [lexLoop_skip tokens hm, lexLoop_skip [] hm]
        exact ih rest.length (by simp [← hn]) rest tokens rfl
      | some m =>
        have hlt : m.suffix.length < n := hn ▸ matchAt_suffix_lt hm
        rw [lexLoop_match tokens hm, lexLoop_match [] hm,
          ih _ hlt m.suffix (pushToken tokens m) rfl,
          ih _ hlt m.suffix (pushToken [] m) rfl, pushToken_append hm tokens,
          List.append_assoc]

/-- Induction along the scan: a property of (input, tokens) that holds for
the empty input, is kept when a character is skipped and when a match is
put in front, holds for the loop's result on every input. -/
theorem lexLoop_induction {P : List Char → List Token → Prop} (hnil : P [] [])
    (hskip : ∀ c cs toks, matchAt (c :: cs) = none → P cs toks → P (c :: cs) toks)
    (hmatch : ∀ cs m toks, matchAt cs = some m → P m.suffix toks →
      P cs (pushToken [] m ++ toks))
    (cs : List Char) : P cs (lexLoop cs []) := by
  obtain ⟨n, hn⟩ : ∃ n, cs.length = n := ⟨_, rfl⟩
  induction n using Nat.strong_induction_on generalizing cs with
  | _ n ih =>
    cases cs with
    | nil => rw [lexLoop_nil]; exact hnil
    | cons c rest =>
      cases hm : matchAt (c :: rest) with
      | none =>
        rw [lexLoop_skip [] hm]
        exact hskip c rest _ hm (ih rest.length (by simp [← hn]) rest rfl)
      | some m =>
        have hlt : m.suffix.length < n := hn ▸ matchAt_suffix_lt hm
        rw [lexLoop_match [] hm, lexLoop_append]
        exact hmatch _ m _ hm (ih _ hlt m.suffix rfl)

/-- No token appended by the loop is the end marker. -/
theorem lexLoop_no_eof (cs : List Char) :
    ∀ t ∈ lexLoop cs [], t.type ≠ TokenType.EOF_TOK := by
  refine lexLoop_induction (P := fun _ toks => ∀ t ∈ toks, t.type ≠ TokenType.EOF_TOK)
    ?_ ?_ ?_ cs
  · intro t ht; cases ht
  · intro _ _ _ _ h; exact h
  · intro cs m toks hm h t ht
    obtain ⟨tok, hpush, _, _, _, hty, _⟩ := pushToken_of_matchAt hm
    rw [hpush [], List.nil_append, List.singleton_append] at ht
    rcases List.mem_cons.mp ht with rfl | ht
    · exact hty
    · exact h t ht

/-- No identifier token appended by the loop is spelled like a keyword. -/
theorem lexLoop_no_keyword_identifier (cs : List Char) :
    ∀ t ∈ lexLoop cs [], t.type = TokenType.IDENTIFIER → t.value ∉ keywords := by
  refine lexLoop_induction
    (P := fun _ toks => ∀ t ∈ toks, t.type = TokenType.IDENTIFIER → t.value ∉ keywords)
    ?_ ?_ ?_ cs
  · intro t ht; cases ht
  · intro _ _ _ _ h; exact h
  · intro cs m toks hm h t ht
    obtain ⟨tok, hpush, _, _, _, _, hid⟩ := pushToken_of_matchAt hm
    rw [hpush [], List.nil_append, List.singleton_append] at ht
    rcases List.mem_cons.mp ht with rfl | ht
    · exact hid
    · exact h t ht

/-- The texts of the loop's tokens, put together, are the input without the
characters outside the token alphabet. -/
theorem lexLoop_texts (cs : List Char) :
    ((lexLoop cs []).map (fun t => t.value.toList)).flatten = cs.filter isTokenChar := by
  refine lexLoop_induction
    (P := fun cs toks => (toks.map (fun t => t.value.toList)).flatten = cs.filter isTokenChar)
    ?_ ?_ ?_ cs
  · rfl
  · intro c cs toks hm h
    rw [h, List.filter_cons_of_neg (by simp [isTokenChar_of_matchAt_none hm])]
  · intro cs m toks hm h
    obtain ⟨tok, hpush, _, happ, hall, _⟩ := pushToken_of_matchAt hm
    rw [hpush [], List.nil_append, List.singleton_append, List.map_cons, List.flatten_cons, h]
    conv_rhs => rw [← happ, List.filter_append]
    rw [List.filter_eq_self.mpr hall]

/-! ## The assignment rule on an identifier -/

/-- C1: when `tokens[i]` is an identifier and `i + 2` is inside the vector,
`parseAssignment` returns a node labelled "=" whose two children, in this
order, are a leaf labelled with the text of `tokens[i]` and a leaf labelled
with the text of `tokens[i + 2]`, and it leaves the cursor at `i + 3`; the
kinds and texts of `tokens[i + 1]` and `tokens[i + 2]` play no part. -/
theorem parseAssignment_identifier (tokens : List Token) (i : Nat)
    (h : i + 2 < tokens.length)
    (hid : (tokens.get ⟨i, Nat.lt_of_le_of_lt (Nat.le_add_right i 2) h⟩).type
      = TokenType.IDENTIFIER) :
    (parseAssignment tokens i).outcome =
      Outcome.returned
        (some (ASTNode.mk "="
          [ASTNode.mk (tokens.get ⟨i, Nat.lt_of_le_of_lt (Nat.le_add_right i 2) h⟩).value [],
           ASTNode.mk (tokens.get ⟨i + 2, h⟩).value []]))
        (i + 3) := by
  have hi : i < tokens.length := Nat.lt_of_le_of_lt (Nat.le_add_right i 2) h
  have h0 : tokens[i]? = some (tokens.get ⟨i, hi⟩) := List.getElem?_eq_getElem hi
  have h2 : tokens[i + 1 + 1]? = some (tokens.get ⟨i + 2, h⟩) := List.getElem?_eq_getElem h
  simp only [parseAssignment, h0, h2, hid, if_true]
  rfl

/-- C1, the spec's example: `a = 5` at cursor 0 gives "=" over the leaves "a"
and "5" and cursor 3. -/
theorem parseAssignment_identifier_witness :
    (parseAssignment
        [⟨TokenType.IDENTIFIER, "a"⟩, ⟨TokenType.OPERATOR, "="⟩, ⟨TokenType.NUMBER, "5"⟩,
          ⟨TokenType.EOF_TOK, ""⟩] 0).outcome =
      Outcome.returned (some (ASTNode.mk "=" [ASTNode.mk "a" [], ASTNode.mk "5" []])) 3 :=
  parseAssignment_identifier
    [⟨TokenType.IDENTIFIER, "a"⟩, ⟨TokenType.OPERATOR, "="⟩, ⟨TokenType.NUMBER, "5"⟩,
      ⟨TokenType.EOF_TOK, ""⟩] 0 (by decide) rfl

/-- C2: when the token at an in-range cursor is not an identifier,
`parseAssignment` returns the null pointer and leaves the cursor where it
was. -/
theorem parseAssignment_not_identifier (tokens : List Token) (i : Nat)
    (h : i < tokens.length) (hty : (tokens.get ⟨i, h⟩).type ≠ TokenType.IDENTIFIER) :
    (parseAssignment tokens i).outcome = Outcome.returned none i := by
  have h0 : tokens[i]? = some (tokens.get ⟨i, h⟩) := List.getElem?_eq_getElem h
  simp only [parseAssignment, h0, hty, if_false]

/-- C2 at a vector that starts with a number. -/
theorem parseAssignment_not_identifier_witness :
    (parseAssignment
        [⟨TokenType.NUMBER, "5"⟩, ⟨TokenType.OPERATOR, "="⟩, ⟨TokenType.NUMBER, "5"⟩,
          ⟨TokenType.EOF_TOK, ""⟩] 0).outcome = Outcome.returned none 0 :=
  parseAssignment_not_identifier
    [⟨TokenType.NUMBER, "5"⟩, ⟨TokenType.OPERATOR, "="⟩, ⟨TokenType.NUMBER, "5"⟩,
      ⟨TokenType.EOF_TOK, ""⟩] 0 (by decide) (by decide)

/-! ## The end marker -/

/-- C3: for every input the result of `lexer` is non-empty, its last element
is the end marker with empty text, no element before the last has kind
`EOF_TOK`, and so exactly one element has that kind. -/
theorem lexer_eof_once (s : String) :
    lexer s ≠ [] ∧
    (lexer s).getLast? = some ⟨TokenType.EOF_TOK, ""⟩ ∧
    (∀ t ∈ (lexer s).dropLast, t.type ≠ TokenType.EOF_TOK) ∧
    (lexer s).countP (fun t => t.type = TokenType.EOF_TOK) = 1 := by
  have hno := lexLoop_no_eof s.toList
  refine ⟨by simp [lexer], by simp [lexer], ?_, ?_⟩
  · simpa [lexer] using hno
  · have hz : (lexLoop s.toList []).countP (fun t => t.type = TokenType.EOF_TOK) = 0 := by
      rw [List.countP_eq_zero]
      intro t ht
      simpa using hno t ht
    rw [lexer, List.countP_append, hz]
    rfl

/-! ## Keywords and identifiers -/

/-- C5: in the result of `lexer`, on any input, no token has kind
`IDENTIFIER` and a reserved keyword ("int", "float", "if") as its text; and
each keyword alone lexes to one `DATA_TYPE` token followed by the end
marker. -/
theorem lexer_keyword_not_identifier :
    (∀ (s : String) (t : Token), t ∈ lexer s →
      ¬ (t.type = TokenType.IDENTIFIER ∧ t.value ∈ keywords)) ∧
    (∀ k : String, k ∈ keywords →
      lexer k = [⟨TokenType.DATA_TYPE, k⟩, ⟨TokenType.EOF_TOK, ""⟩]) := by
  constructor
  · intro s t ht ⟨hty, hkw⟩
    rw [lexer, List.mem_append] at ht
    rcases ht with ht | ht
    · exact lexLoop_no_keyword_identifier s.toList t ht hty hkw
    · rw [List.mem_singleton] at ht
      subst ht
      cases hty
  · intro k hk
    simp only [keywords, List.mem_cons, List.mem_singleton, List.not_mem_nil, or_false] at hk
    rcases hk with rfl | rfl | rfl
    all_goals
      unfold lexer
      rw [lexLoop_some [] (by rfl), lexLoop_none _ (by rfl)]
      rfl

/-- C6, as stated, fails: the result of `lexer` on "integer" is not one
`DATA_TYPE` token followed by the end marker with no `IDENTIFIER` token. -/
theorem lexer_integer_not_single :
    ¬ ((∃ v : String, lexer "integer" = [⟨TokenType.DATA_TYPE, v⟩, ⟨TokenType.EOF_TOK, ""⟩]) ∧
      ∀ t ∈ lexer "integer", t.type ≠ TokenType.IDENTIFIER) := by
  have hlex : lexer "integer" = [⟨TokenType.DATA_TYPE, "int"⟩,
      ⟨TokenType.IDENTIFIER, "eger"⟩, ⟨TokenType.EOF_TOK, ""⟩] := by
    unfold lexer
    rw [lexLoop_some [] (by rfl), lexLoop_some _ (by rfl), lexLoop_none _ (by rfl)]
    rfl
  rintro ⟨⟨v, hv⟩, -⟩
  rw [hlex] at hv
  have hlen := congrArg List.length hv
  simp at hlen

/-- C6, amended: on "integer" the result of `lexer` is exactly the
`DATA_TYPE` token "int", the `IDENTIFIER` token "eger" and the end marker.
At the start of "integer" the identifier pattern alone matches the whole
word, yet the match that `regex_search` returns there is the keyword "int"
of group 1 with the rest "eger", so this word is split into a keyword token
and a remainder token. -/
theorem lexer_integer_split :
    lexer "integer" = [⟨TokenType.DATA_TYPE, "int"⟩, ⟨TokenType.IDENTIFIER, "eger"⟩,
      ⟨TokenType.EOF_TOK, ""⟩] ∧
    matchIdentifier "integer".toList = some ("integer".toList, []) ∧
    regexSearch "integer".toList = some ⟨"int".toList, [], [], [], "eger".toList⟩ := by
  refine ⟨?_, by decide, by decide⟩
  unfold lexer
  rw [lexLoop_some [] (by rfl), lexLoop_some _ (by rfl), lexLoop_none _ (by rfl)]
  rfl

/-! ## The token texts against the input -/

/-- C7: for every input, the texts of the tokens other than the end marker,
concatenated in order, are the input with exactly the characters outside the
token alphabet `[a-zA-Z0-9_=+<]` removed; and every character of every token
text is in that alphabet. -/
theorem lexer_texts (s : String) :
    String.join (((lexer s).filter (fun t => t.type ≠ TokenType.EOF_TOK)).map Token.value)
      = String.mk (s.toList.filter isTokenChar) ∧
    (∀ t ∈ lexer s, ∀ c ∈ t.value.toList, isTokenChar c = true) := by
  have hno := lexLoop_no_eof s.toList
  have htx := lexLoop_texts s.toList
  constructor
  · have hf : (lexer s).filter (fun t => t.type ≠ TokenType.EOF_TOK) = lexLoop s.toList [] := by
      rw [lexer, List.filter_append, List.filter_eq_self.mpr (by simpa using hno)]
      simp
    rw [hf, String.join_eq]
    congr 1
    rw [← htx, List.map_map]
    rfl
  · intro t ht c hc
    rw [lexer, List.mem_append] at ht
    rcases ht with ht | ht
    · have hmem : c ∈ ((lexLoop s.toList []).map (fun t => t.value.toList)).flatten :=
        List.mem_flatten.mpr ⟨t.value.toList, List.mem_map.mpr ⟨t, ht, rfl⟩, hc⟩
      rw [htx] at hmem
      exact (List.mem_filter.mp hmem).2
    · rw [List.mem_singleton] at ht
      subst ht
      cases hc

/-! ## An identifier, an equals sign and a number -/

theorem isIdentStart_of_digit {c : Char} (h : isDigit c = true) : isIdentStart c = false := by
  simp only [isDigit, isIdentStart, Bool.and_eq_true, decide_eq_true_eq, Bool.or_eq_false_iff,
    Bool.and_eq_false_iff, decide_eq_false_iff_not, beq_eq_false_iff_ne] at h ⊢
  obtain ⟨_, h2⟩ := h
  rw [Char.le_def] at h2
  simp only [Char.le_def]
  have h2n : c.val.toNat ≤ 57 := h2
  refine ⟨⟨Or.inl ?_, Or.inl ?_⟩, ?_⟩
  · intro h; have : (97 : Nat) ≤ c.val.toNat := h; omega
  · intro h; have : (65 : Nat) ≤ c.val.toNat := h; omega
  · rintro rfl; revert h2n; decide

theorem keyword_chars {kw : List Char} (h : String.mk kw ∈ keywords) :
    kw = "int".toList ∨ kw = "float".toList ∨ kw = "if".toList := by
  simp only [keywords, List.mem_cons, List.mem_singleton, List.not_mem_nil, or_false] at h
  rcases h with h | h | h
  · exact Or.inl (congrArg String.data h)
  · exact Or.inr (Or.inl (congrArg String.data h))
  · exact Or.inr (Or.inr (congrArg String.data h))

/-- A keyword can only match at an `i` or an `f`. -/
theorem matchKeyword_head {c : Char} {cs kw rest : List Char}
    (h : matchKeyword (c :: cs) = some (kw, rest)) : c = 'i' ∨ c = 'f' := by
  obtain ⟨hmem, happ⟩ := matchKeyword_some h
  rcases keyword_chars hmem with rfl | rfl | rfl
  · left; injection happ with h1 _; exact h1.symm
  · right; injection happ with h1 _; exact h1.symm
  · left; injection happ with h1 _; exact h1.symm

theorem matchKeyword_none_of_head {c : Char} (cs : List Char) (hi : c ≠ 'i') (hf : c ≠ 'f') :
    matchKeyword (c :: cs) = none := by
  cases h : matchKeyword (c :: cs) with
  | none => rfl
  | some p =>
    obtain ⟨kw, rest⟩ := p
    rcases matchKeyword_head h with rfl | rfl
    · exact absurd rfl hi
    · exact absurd rfl hf

/-- A character outside the token alphabet starts no match. -/
theorem matchAt_of_not_tokenChar {c : Char} (cs : List Char) (h : isTokenChar c = false) :
    matchAt (c :: cs) = none := by
  cases hm : matchAt (c :: cs) with
  | none => rfl
  | some m =>
    obtain ⟨tok, _, hne, happ, hall, _⟩ := pushToken_of_matchAt hm
    cases hv : tok.value.toList with
    | nil => exact absurd hv hne
    | cons d ds =>
      rw [hv] at happ hall
      injection happ with h1 _
      subst h1
      have := hall d (List.mem_cons_self _ _)
      rw [h] at this
      cases this

theorem takeWhile_append_stop {p : Char → Bool} {x : List Char} (hx : ∀ c ∈ x, p c = true)
    {c : Char} (hc : p c = false) (r : List Char) : (x ++ c :: r).takeWhile p = x := by
  rw [List.takeWhile_append_of_pos hx, List.takeWhile_cons_of_neg (by simp [hc]),
    List.append_nil]

theorem dropWhile_append_stop {p : Char → Bool} {x : List Char} (hx : ∀ c ∈ x, p c = true)
    {c : Char} (hc : p c = false) (r : List Char) : (x ++ c :: r).dropWhile p = c :: r := by
  rw [List.dropWhile_append_of_pos hx, List.dropWhile_cons_of_neg (by simp [hc])]

/-- A word of identifier characters that begins with no keyword, followed by
a character that ends the word, is not matched by group 1. -/
theorem matchKeyword_word_none {x : List Char} (hx : ∀ c ∈ x, isIdentCont c = true)
    (hkw : ∀ k ∈ keywords, ¬ k.toList <+: x) {c : Char} (hc : isIdentCont c = false)
    (r : List Char) : matchKeyword (x ++ c :: r) = none := by
  cases h : matchKeyword (x ++ c :: r) with
  | none => rfl
  | some p =>
    obtain ⟨kw, rest⟩ := p
    obtain ⟨hmem, happ⟩ := matchKeyword_some h
    have hall : ∀ d ∈ kw, isIdentCont d = true := by
      rcases keyword_chars hmem with rfl | rfl | rfl <;> decide
    have htw : kw <+: (x ++ c :: r).takeWhile isIdentCont := by
      rw [← happ, List.takeWhile_append_of_pos hall]
      exact List.prefix_append _ _
    rw [takeWhile_append_stop hx hc] at htw
    exact absurd htw (hkw (String.mk kw) hmem)

/-- C4: for every text `x` that the identifier pattern matches and that does
not begin with a reserved keyword, and every non-empty text `n` of decimal
digits, `lexer` on `x`, " = ", `n` gives exactly the identifier `x`, the
operator "=", the number `n` and the end marker. -/
theorem lexer_assignment (x n : String) (hx : isIdentifierText x = true)
    (hkw : beginsWithKeyword x = false) (hn : isNumberText n = true) :
    lexer (x ++ " = " ++ n) =
      [⟨TokenType.IDENTIFIER, x⟩, ⟨TokenType.OPERATOR, "="⟩, ⟨TokenType.NUMBER, n⟩,
        ⟨TokenType.EOF_TOK, ""⟩] := by
  obtain ⟨xs⟩ := x
  obtain ⟨ns⟩ := n
  simp only [isIdentifierText, String.toList] at hx
  simp only [isNumberText, String.toList, Bool.and_eq_true, Bool.not_eq_true',
    List.isEmpty_eq_false, List.all_eq_true] at hn
  obtain ⟨hne, hdig⟩ := hn
  have hkw2 : ∀ k ∈ keywords, ¬ k.toList <+: xs := by
    intro k hk hp
    have : beginsWithKeyword ⟨xs⟩ = true :=
      List.any_eq_true.mpr ⟨k, hk, List.isPrefixOf_iff_prefix.mpr hp⟩
    rw [hkw] at this
    cases this
  cases xs with
  | nil => cases hx
  | cons c rest =>
    cases ns with
    | nil => exact absurd rfl hne
    | cons d ds =>
      simp only [Bool.and_eq_true, List.all_eq_true] at hx
      obtain ⟨hc, hrest⟩ := hx
      have hd : isDigit d = true := hdig d (List.mem_cons_self _ _)
      have hds : ∀ e ∈ ds, isDigit e = true := fun e he => hdig e (List.mem_cons_of_mem _ he)
      have hcont : ∀ e ∈ c :: rest, isIdentCont e = true := by
        intro e he
        rcases List.mem_cons.mp he with rfl | he
        · rw [isIdentCont_eq, hc]; rfl
        · exact hrest e he
      have hsp : isIdentCont ' ' = false := by decide
      -- the identifier
      have m1 : matchAt (c :: rest ++ ' ' :: '=' :: ' ' :: d :: ds) =
          some ⟨[], c :: rest, [], [], ' ' :: '=' :: ' ' :: d :: ds⟩ := by
        have hk := matchKeyword_word_none hcont hkw2 hsp ('=' :: ' ' :: d :: ds)
        rw [matchAt, hk]
        simp only [List.cons_append, matchIdentifier, hc, if_true,
          takeWhile_append_stop hrest hsp, dropWhile_append_stop hrest hsp]
      -- the operator
      have m2 : matchAt ('=' :: ' ' :: d :: ds) = some ⟨[], [], [], ['='], ' ' :: d :: ds⟩ := by
        rw [matchAt, matchKeyword_none_of_head _ (by decide) (by decide)]
        rfl
      -- the number
      have m3 : matchAt (d :: ds) = some ⟨[], [], d :: ds, [], []⟩ := by
        have hdi : d ≠ 'i' := by rintro rfl; revert hd; decide
        have hdf : d ≠ 'f' := by rintro rfl; revert hd; decide
        rw [matchAt, matchKeyword_none_of_head _ hdi hdf]
        simp only [matchIdentifier, isIdentStart_of_digit hd, matchNumber, hd, if_true,
          List.takeWhile_eq_self_iff.mpr hds, List.dropWhile_eq_nil_iff.mpr hds]
        rfl
      have hdata : (String.mk (c :: rest) ++ " = " ++ String.mk (d :: ds)).toList =
          c :: rest ++ ' ' :: '=' :: ' ' :: d :: ds := by
        simp [String.toList]
      rw [lexer, hdata, lexLoop_match [] m1]
      simp only []
      rw [lexLoop_skip _ (matchAt_of_not_tokenChar _ (by decide)), lexLoop_match _ m2]
      simp only []
      rw [lexLoop_skip _ (matchAt_of_not_tokenChar _ (by decide)), lexLoop_match _ m3,
        lexLoop_nil]
      simp [pushToken]

/-- C4 at the spec's example: "a12 = 34" lexes to the identifier "a12", the
operator "=", the number "34" and the end marker. -/
theorem lexer_assignment_witness :
    lexer "a12 = 34" =
      [⟨TokenType.IDENTIFIER, "a12"⟩, ⟨TokenType.OPERATOR, "="⟩, ⟨TokenType.NUMBER, "34"⟩,
        ⟨TokenType.EOF_TOK, ""⟩] :=
  lexer_assignment "a12" "34" (by decide) (by decide) (by decide)

/-! ## What the assignment rule checks -/

theorem lexer_single_identifier :
    lexer "a" = [⟨TokenType.IDENTIFIER, "a"⟩, ⟨TokenType.EOF_TOK, ""⟩] := by
  unfold lexer
  rw [lexLoop_some [] (by rfl), lexLoop_none _ (by rfl)]
  rfl

/-- C9, as stated, fails: `lexer` on "a" gives the identifier "a" and the end
marker, cursor 0 indexes a token of it, and `parseAssignment` reads index 2,
which is not below the length 2. -/
theorem parseAssignment_reads_past_end :
    lexer "a" = [⟨TokenType.IDENTIFIER, "a"⟩, ⟨TokenType.EOF_TOK, ""⟩] ∧
      0 < (lexer "a").length ∧
      ¬ ∀ k ∈ (parseAssignment (lexer "a") 0).reads, k < (lexer "a").length := by
  rw [lexer_single_identifier]
  decide

/-- C9, amended: at a cursor `i` that indexes a token, every read of
`parseAssignment` is inside the vector if and only if `tokens[i]` is not an
identifier or `i + 2` is inside the vector; nothing is compared with the end
of the vector before indexing. -/
theorem parseAssignment_reads_in_range_iff (tokens : List Token) (i : Nat)
    (h : i < tokens.length) :
    (∀ k ∈ (parseAssignment tokens i).reads, k < tokens.length) ↔
      ((tokens.get ⟨i, h⟩).type ≠ TokenType.IDENTIFIER ∨ i + 2 < tokens.length) := by
  have h0 : tokens[i]? = some (tokens.get ⟨i, h⟩) := List.getElem?_eq_getElem h
  by_cases hid : (tokens.get ⟨i, h⟩).type = TokenType.IDENTIFIER
  · have hreads : (parseAssignment tokens i).reads = [i, i, i + 2] := by
      simp only [parseAssignment, h0, hid, if_true]
      split <;> rfl
    rw [hreads]
    constructor
    · intro hall
      exact Or.inr (hall (i + 2) (by simp))
    · rintro (hne | h2) k hk
      · exact absurd hid hne
      · simp only [List.mem_cons, List.mem_singleton, List.not_mem_nil, or_false] at hk
        rcases hk with rfl | rfl | rfl <;> assumption
  · have hreads : (parseAssignment tokens i).reads = [i] := by
      simp only [parseAssignment, h0, hid, if_false]
    rw [hreads]
    constructor
    · intro _
      exact Or.inl hid
    · intro _ k hk
      rw [List.mem_singleton] at hk
      rw [hk]
      exact h

/-- C9, amended, on `a = 5`: the reads at cursor 0 stay inside the vector. -/
theorem parseAssignment_reads_in_range_iff_witness :
    0 < ([⟨TokenType.IDENTIFIER, "a"⟩, ⟨TokenType.OPERATOR, "="⟩, ⟨TokenType.NUMBER, "5"⟩,
          ⟨TokenType.EOF_TOK, ""⟩] : List Token).length ∧
      ((∀ k ∈ (parseAssignment
            [⟨TokenType.IDENTIFIER, "a"⟩, ⟨TokenType.OPERATOR, "="⟩, ⟨TokenType.NUMBER, "5"⟩,
              ⟨TokenType.EOF_TOK, ""⟩] 0).reads, k < 4) ↔
        (TokenType.IDENTIFIER ≠ TokenType.IDENTIFIER ∨ 0 + 2 < 4)) :=
  ⟨by decide,
    parseAssignment_reads_in_range_iff
      [⟨TokenType.IDENTIFIER, "a"⟩, ⟨TokenType.OPERATOR, "="⟩, ⟨TokenType.NUMBER, "5"⟩,
        ⟨TokenType.EOF_TOK, ""⟩] 0 (by decide)⟩

/-! ## The driver -/

theorem lexer_mainCode :
    lexer mainCode =
      [⟨TokenType.DATA_TYPE, "int"⟩, ⟨TokenType.IDENTIFIER, "a"⟩, ⟨TokenType.OPERATOR, "="⟩,
        ⟨TokenType.NUMBER, "5"⟩, ⟨TokenType.DATA_TYPE, "if"⟩, ⟨TokenType.IDENTIFIER, "a"⟩,
        ⟨TokenType.NUMBER, "3"⟩, ⟨TokenType.IDENTIFIER, "a"⟩, ⟨TokenType.OPERATOR, "="⟩,
        ⟨TokenType.IDENTIFIER, "a"⟩, ⟨TokenType.OPERATOR, "+"⟩, ⟨TokenType.NUMBER, "1"⟩,
        ⟨TokenType.EOF_TOK, ""⟩] := by
  unfold lexer
  repeat rw [lexLoop_some _ (by rfl)]
  rw [lexLoop_none _ (by rfl)]
  rfl

/-- C10, on the code: for the driver's program the first token is the
`DATA_TYPE` token "int", so `parseAssignment` at cursor 0 returns the null
pointer and leaves the cursor at 0; the node "=" over "a" and "5" is what it
returns from cursor 1. -/
theorem main_parse_null :
    (lexer mainCode).head? = some ⟨TokenType.DATA_TYPE, "int"⟩ ∧
      mainParse.outcome = Outcome.returned none 0 ∧
      (parseAssignment (lexer mainCode) 1).outcome =
        Outcome.returned (some (ASTNode.mk "=" [ASTNode.mk "a" [], ASTNode.mk "5" []])) 4 := by
  rw [mainParse, lexer_mainCode]
  exact ⟨rfl, rfl, rfl⟩

/-! ## The shape of every token -/

/-- The token that the loop body appends for a match has a text of the shape
that belongs to its kind. -/
theorem pushToken_shape {cs : List Char} {m : SMatch} (h : matchAt cs = some m) :
    ∃ tok : Token, pushToken [] m = [tok] ∧
      (tok.type = TokenType.DATA_TYPE → tok.value ∈ keywords) ∧
      (tok.type = TokenType.IDENTIFIER →
        isIdentifierText tok.value = true ∧ beginsWithKeyword tok.value = false) ∧
      (tok.type = TokenType.NUMBER → isNumberText tok.value = true) ∧
      (tok.type = TokenType.OPERATOR → tok.value ∈ operators) ∧
      tok.type ≠ TokenType.EOF_TOK ∧ tok.type ≠ TokenType.ASSIGN_OP := by
  rcases matchAt_cases h with ⟨kw, rest, hk, rfl⟩ | ⟨c, rest, rfl, hk, hc, rfl⟩ |
    ⟨c, rest, rfl, hk, _, hc, rfl⟩ | ⟨c, rest, rfl, hk, _, _, hc, rfl⟩
  · obtain ⟨hmem, _⟩ := matchKeyword_some hk
    have hne : kw ≠ [] := by
      rintro rfl
      revert hmem
      decide
    refine ⟨⟨TokenType.DATA_TYPE, String.mk kw⟩, by simp [pushToken, hne], fun _ => hmem,
      ?_, ?_, ?_, by simp, by simp⟩ <;> intro h <;> cases h
  · refine ⟨⟨TokenType.IDENTIFIER, String.mk (c :: rest.takeWhile isIdentCont)⟩,
      by simp [pushToken], ?_, fun _ => ⟨?_, ?_⟩, ?_, ?_, by simp, by simp⟩
    · intro h; cases h
    · simp only [isIdentifierText, String.toList, hc, Bool.true_and, List.all_eq_true]
      exact fun x hx => List.mem_takeWhile_imp hx
    · simp only [beginsWithKeyword, String.toList, List.any_eq_false]
      intro k hk2 hp
      refine matchKeyword_none hk k hk2 ?_
      exact (List.isPrefixOf_iff_prefix.mp hp).trans
        ⟨rest.dropWhile isIdentCont, by simp⟩
    · intro h; cases h
    · intro h; cases h
  · refine ⟨⟨TokenType.NUMBER, String.mk (c :: rest.takeWhile isDigit)⟩,
      by simp [pushToken], ?_, ?_, fun _ => ?_, ?_, by simp, by simp⟩
    · intro h; cases h
    · intro h; cases h
    · simp only [isNumberText, String.toList, List.isEmpty_cons, Bool.not_false,
        Bool.true_and, List.all_cons, hc, List.all_eq_true]
      exact fun x hx => List.mem_takeWhile_imp hx
    · intro h; cases h
  · refine ⟨⟨TokenType.OPERATOR, String.mk [c]⟩, by simp [pushToken], ?_, ?_, ?_,
      fun _ => ?_, by simp, by simp⟩
    · intro h; cases h
    · intro h; cases h
    · intro h; cases h
    · simp only [isOperatorChar, Bool.or_eq_true, beq_iff_eq] at hc
      rcases hc with (rfl | rfl) | rfl <;> decide

/-- The shape of every token that the loop appends. -/
theorem lexLoop_shape (cs : List Char) :
    ∀ t ∈ lexLoop cs [],
      (t.type = TokenType.DATA_TYPE → t.value ∈ keywords) ∧
      (t.type = TokenType.IDENTIFIER →
        isIdentifierText t.value = true ∧ beginsWithKeyword t.value = false) ∧
      (t.type = TokenType.NUMBER → isNumberText t.value = true) ∧
      (t.type = TokenType.OPERATOR → t.value ∈ operators) ∧
      t.type ≠ TokenType.EOF_TOK ∧ t.type ≠ TokenType.ASSIGN_OP := by
  refine lexLoop_induction
    (P := fun _ toks => ∀ t ∈ toks,
      (t.type = TokenType.DATA_TYPE → t.value ∈ keywords) ∧
      (t.type = TokenType.IDENTIFIER →
        isIdentifierText t.value = true ∧ beginsWithKeyword t.value = false) ∧
      (t.type = TokenType.NUMBER → isNumberText t.value = true) ∧
      (t.type = TokenType.OPERATOR → t.value ∈ operators) ∧
      t.type ≠ TokenType.EOF_TOK ∧ t.type ≠ TokenType.ASSIGN_OP)
    ?_ ?_ ?_ cs
  · intro t ht; cases ht
  · intro _ _ _ _ h; exact h
  · intro cs m toks hm h t ht
    obtain ⟨tok, hpush, hshape⟩ := pushToken_shape hm
    rw [hpush, List.singleton_append] at ht
    rcases List.mem_cons.mp ht with rfl | ht
    · exact hshape
    · exact h t ht

/-- C11: every token of `lexer s` has a text of the shape of its kind: a
`DATA_TYPE` text is "int", "float" or "if"; an `IDENTIFIER` text is a letter
or underscore followed by letters, digits or underscores; a `NUMBER` text is
a non-empty run of decimal digits; an `OPERATOR` text is "=", "+" or "<"; an
`EOF_TOK` text is empty; and no token has the kind `ASSIGN_OP`. -/
theorem lexer_token_shapes (s : String) (t : Token) (ht : t ∈ lexer s) :
    (t.type = TokenType.DATA_TYPE → t.value ∈ keywords) ∧
    (t.type = TokenType.IDENTIFIER → isIdentifierText t.value = true) ∧
    (t.type = TokenType.NUMBER → isNumberText t.value = true) ∧
    (t.type = TokenType.OPERATOR → t.value ∈ operators) ∧
    (t.type = TokenType.EOF_TOK → t.value = "") ∧
    t.type ≠ TokenType.ASSIGN_OP := by
  rw [lexer, List.mem_append] at ht
  rcases ht with ht | ht
  · obtain ⟨h1, h2, h3, h4, h5, h6⟩ := lexLoop_shape s.toList t ht
    exact ⟨h1, fun h => (h2 h).1, h3, h4, fun h => absurd h h5, h6⟩
  · rw [List.mem_singleton] at ht
    subst ht
    refine ⟨?_, ?_, ?_, ?_, fun _ => rfl, by simp⟩ <;> intro h <;> cases h

/-- C11 on the input "a": its identifier token has the identifier shape. -/
theorem lexer_token_shapes_witness :
    (⟨TokenType.IDENTIFIER, "a"⟩ : Token) ∈ lexer "a" ∧ isIdentifierText "a" = true :=
  have hmem : (⟨TokenType.IDENTIFIER, "a"⟩ : Token) ∈ lexer "a" := by
    rw [lexer_single_identifier]
    exact List.mem_cons_self _ _
  ⟨hmem, (lexer_token_shapes "a" ⟨TokenType.IDENTIFIER, "a"⟩ hmem).2.1 rfl⟩

/-! ## Progress and termination of the scan -/

/-- A match is non-empty and, with the rest, makes up the input it was found
at the start of. -/
theorem matchAt_str0 {cs : List Char} {m : SMatch} (h : matchAt cs = some m) :
    m.str0 ≠ [] ∧ m.str0 ++ m.suffix = cs := by
  rcases matchAt_cases h with ⟨kw, rest, hk, rfl⟩ | ⟨c, rest, rfl, hk, hc, rfl⟩ |
    ⟨c, rest, rfl, hk, _, hc, rfl⟩ | ⟨c, rest, rfl, hk, _, _, hc, rfl⟩
  · obtain ⟨hmem, happ⟩ := matchKeyword_some hk
    have hne : kw ≠ [] := by
      rintro rfl
      revert hmem
      decide
    exact ⟨by simpa [SMatch.str0] using hne, by simpa [SMatch.str0] using happ⟩
  · exact ⟨by simp [SMatch.str0], by simp [SMatch.str0]⟩
  · exact ⟨by simp [SMatch.str0], by simp [SMatch.str0]⟩
  · exact ⟨by simp [SMatch.str0], by simp [SMatch.str0]⟩

/-- What `regex_search` finds: after a run of characters outside the token
alphabet, a match anchored where the run ends. -/
theorem regexSearch_some {cs : List Char} {m : SMatch} (h : regexSearch cs = some m) :
    ∃ skipped : List Char, (∀ c ∈ skipped, isTokenChar c = false) ∧
      cs = skipped ++ (m.str0 ++ m.suffix) ∧ matchAt (m.str0 ++ m.suffix) = some m := by
  induction cs with
  | nil => cases h
  | cons c cs ih =>
    cases hm : matchAt (c :: cs) with
    | some m0 =>
      have hr : regexSearch (c :: cs) = some m0 := regexSearch_of_matchAt hm
      rw [h] at hr
      cases hr
      have happ := (matchAt_str0 hm).2
      exact ⟨[], by simp, by simp [happ], by rw [happ]; exact hm⟩
    | none =>
      rw [regexSearch_skip hm] at h
      obtain ⟨skipped, hsk, hcs, hmat⟩ := ih h
      refine ⟨c :: skipped, ?_, by rw [hcs]; simp, hmat⟩
      intro x hx
      rcases List.mem_cons.mp hx with rfl | hx
      · exact isTokenChar_of_matchAt_none hm
      · exact hsk x hx

theorem regexSearch_suffix_lt {cs : List Char} {m : SMatch} (h : regexSearch cs = some m) :
    m.suffix.length < cs.length := by
  obtain ⟨skipped, _, hcs, hmat⟩ := regexSearch_some h
  have hne := (matchAt_str0 hmat).1
  have hpos : 0 < m.str0.length := List.length_pos.mpr hne
  have hlen := congrArg List.length hcs
  simp only [List.length_append] at hlen
  omega

/-- More rounds than the input has characters are enough for the loop to
leave, with the result of `lexLoop`. -/
theorem lexLoopFuel_eq (fuel : Nat) (cs : List Char) (tokens : List Token)
    (h : cs.length < fuel) : lexLoopFuel fuel cs tokens = some (lexLoop cs tokens) := by
  induction fuel generalizing cs tokens with
  | zero => exact absurd h (Nat.not_lt_zero _)
  | succ fuel ih =>
    cases hr : regexSearch cs with
    | none => simp only [lexLoopFuel, hr, lexLoop_none tokens hr]
    | some m =>
      have hlt := regexSearch_suffix_lt hr
      simp only [lexLoopFuel, hr, lexLoop_some tokens hr]
      exact ih m.suffix _ (by omega)

/-- C12: `lexer` terminates on every input. Every match that `regex_search`
finds is non-empty and lies at or after the search start, so the rest of the
input that the next round starts from is strictly shorter; hence the loop
condition is evaluated at most once more than the input has characters, and
the result of that bounded run is the result of `lexer`. -/
theorem lexer_terminates :
    (∀ (cs : List Char) (m : SMatch), regexSearch cs = some m →
      m.str0 ≠ [] ∧ (∃ skipped, cs = skipped ++ m.str0 ++ m.suffix) ∧
        m.suffix.length < cs.length) ∧
    (∀ s : String, ∃ tokens : List Token,
      lexLoopFuel (s.length + 1) s.toList [] = some tokens ∧
        lexer s = tokens ++ [⟨TokenType.EOF_TOK, ""⟩]) := by
  constructor
  · intro cs m h
    obtain ⟨skipped, _, hcs, hmat⟩ := regexSearch_some h
    exact ⟨(matchAt_str0 hmat).1, ⟨skipped, by rw [List.append_assoc]; exact hcs⟩,
      regexSearch_suffix_lt h⟩
  · intro s
    exact ⟨lexLoop s.toList [], lexLoopFuel_eq _ _ _ (Nat.lt_succ_self _), rfl⟩

/-! ## Failure of the assignment rule, repeated -/

/-- C13: when `parseAssignment` at cursor `i` returns the null pointer and
leaves the cursor at `j`, then `j` is `i`, and the call repeated from `j`
returns the null pointer again and leaves the cursor at `i`. -/
theorem parseAssignment_failure_idempotent (tokens : List Token) (i j : Nat)
    (h : i < tokens.length)
    (hfail : (parseAssignment tokens i).outcome = Outcome.returned none j) :
    j = i ∧ (parseAssignment tokens j).outcome = Outcome.returned none i := by
  have h0 : tokens[i]? = some (tokens.get ⟨i, h⟩) := List.getElem?_eq_getElem h
  have hj : j = i := by
    simp only [parseAssignment, h0] at hfail
    split at hfail
    · split at hfail <;> cases hfail
    · cases hfail
      rfl
  subst hj
  exact ⟨rfl, hfail⟩

/-- C13 on a vector that starts with a `DATA_TYPE` token. -/
theorem parseAssignment_failure_idempotent_witness :
    0 = 0 ∧
      (parseAssignment
        [⟨TokenType.DATA_TYPE, "int"⟩, ⟨TokenType.IDENTIFIER, "a"⟩, ⟨TokenType.EOF_TOK, ""⟩]
        0).outcome = Outcome.returned none 0 :=
  parseAssignment_failure_idempotent
    [⟨TokenType.DATA_TYPE, "int"⟩, ⟨TokenType.IDENTIFIER, "a"⟩, ⟨TokenType.EOF_TOK, ""⟩]
    0 0 (by decide) rfl

/-! ## Scanning across a skipped character -/

theorem takeWhile_append_cut {p : Char → Bool} {c : Char} (hc : p c = false)
    (l r : List Char) : (l ++ c :: r).takeWhile p = l.takeWhile p := by
  induction l with
  | nil => simp [hc]
  | cons d l ih => simp only [List.cons_append, List.takeWhile_cons, ih]

theorem dropWhile_append_cut {p : Char → Bool} {c : Char} (hc : p c = false)
    (l r : List Char) : (l ++ c :: r).dropWhile p = l.dropWhile p ++ c :: r := by
  induction l with
  | nil => simp [hc]
  | cons d l ih =>
    simp only [List.cons_append, List.dropWhile_cons, ih]
    split <;> rfl

/-- A word of token characters starts `l` followed by a skipped character
exactly when it starts `l`. -/
theorem isPrefixOf_append_cut {kw : List Char} (hkw : ∀ d ∈ kw, isTokenChar d = true)
    {c : Char} (hc : isTokenChar c = false) (l r : List Char) :
    kw.isPrefixOf (l ++ c :: r) = kw.isPrefixOf l := by
  induction kw generalizing l with
  | nil => simp [List.isPrefixOf]
  | cons d kw ih =>
    have hd : isTokenChar d = true := hkw d (List.mem_cons_self _ _)
    have hrest : ∀ e ∈ kw, isTokenChar e = true := fun e he =>
      hkw e (List.mem_cons_of_mem _ he)
    cases l with
    | nil =>
      have hne : (d == c) = false := by
        rw [beq_eq_false_iff_ne]
        rintro rfl
        rw [hd] at hc
        cases hc
      simp [List.isPrefixOf, hne]
    | cons e l =>
      show ((d == e) && kw.isPrefixOf (l ++ c :: r)) = ((d == e) && kw.isPrefixOf l)
      rw [ih hrest]

theorem matchKeyword_append_cut {c : Char} (hc : isTokenChar c = false) (l r : List Char) :
    matchKeyword (l ++ c :: r) = (matchKeyword l).map (fun p => (p.1, p.2 ++ c :: r)) := by
  have hlen : ∀ kw : List Char, kw.isPrefixOf l = true → kw.length ≤ l.length :=
    fun kw h => (List.isPrefixOf_iff_prefix.mp h).length_le
  have h1 := @isPrefixOf_append_cut "int".toList (by decide) c hc l r
  have h2 := @isPrefixOf_append_cut "float".toList (by decide) c hc l r
  have h3 := @isPrefixOf_append_cut "if".toList (by decide) c hc l r
  rw [matchKeyword, matchKeyword, h1, h2, h3]
  split
  · next h =>
    have e : List.drop 3 (l ++ c :: r) = List.drop 3 l ++ c :: r :=
      List.drop_append_of_le_length (hlen _ h)
    rw [e]
    rfl
  · split
    · next h =>
      have e : List.drop 5 (l ++ c :: r) = List.drop 5 l ++ c :: r :=
        List.drop_append_of_le_length (hlen _ h)
      rw [e]
      rfl
    · split
      · next h =>
        have e : List.drop 2 (l ++ c :: r) = List.drop 2 l ++ c :: r :=
          List.drop_append_of_le_length (hlen _ h)
        rw [e]
        rfl
      · rfl

/-- The pattern matches at the start of `l` followed by a skipped character
as it matches at the start of `l`; only the rest is longer. -/
theorem matchAt_append_cut {c : Char} (hc : isTokenChar c = false) (l r : List Char) :
    matchAt (l ++ c :: r) =
      (matchAt l).map (fun m => ⟨m.str1, m.str2, m.str3, m.str4, m.suffix ++ c :: r⟩) := by
  have hcc : isIdentCont c = false := by
    simp only [isTokenChar, Bool.or_eq_false_iff] at hc
    exact hc.1
  have hcd : isDigit c = false := by
    rw [isIdentCont_eq, Bool.or_eq_false_iff] at hcc
    exact hcc.2
  cases l with
  | nil => rw [List.nil_append, matchAt_of_not_tokenChar r hc, matchAt_nil]; rfl
  | cons d l =>
    rw [matchAt, matchAt, matchKeyword_append_cut hc]
    cases matchKeyword (d :: l) with
    | some p => rfl
    | none =>
      simp only [Option.map_none', List.cons_append, matchIdentifier, matchNumber,
        matchOperator, takeWhile_append_cut hcc, dropWhile_append_cut hcc,
        takeWhile_append_cut hcd, dropWhile_append_cut hcd]
      by_cases hi : isIdentStart d = true
      · simp [hi]
      · by_cases hd : isDigit d = true
        · simp [hi, hd]
        · by_cases ho : isOperatorChar d = true
          · simp [hi, hd, ho]
          · simp [hi, hd, ho]

/-- The loop on `l`, a skipped character and `r` appends the tokens of `l`
and then the tokens of `r`. -/
theorem lexLoop_append_cut {c : Char} (hc : isTokenChar c = false) (l r : List Char) :
    lexLoop (l ++ c :: r) [] = lexLoop l [] ++ lexLoop r [] := by
  obtain ⟨n, hn⟩ : ∃ n, l.length = n := ⟨_, rfl⟩
  induction n using Nat.strong_induction_on generalizing l with
  | _ n ih =>
    cases l with
    | nil =>
      rw [List.nil_append, lexLoop_skip [] (matchAt_of_not_tokenChar r hc), lexLoop_nil,
        List.nil_append]
    | cons d l =>
      have hcut := matchAt_append_cut hc (d :: l) r
      cases hm : matchAt (d :: l) with
      | none =>
        rw [hm] at hcut
        have hskip : matchAt (d :: (l ++ c :: r)) = none := hcut
        rw [lexLoop_skip [] hm, List.cons_append, lexLoop_skip [] hskip]
        exact ih l.length (by simp [← hn]) l rfl
      | some m =>
        rw [hm] at hcut
        have hmat : matchAt (d :: l ++ c :: r) =
            some ⟨m.str1, m.str2, m.str3, m.str4, m.suffix ++ c :: r⟩ := hcut
        have hlt : m.suffix.length < n := hn ▸ matchAt_suffix_lt hm
        rw [lexLoop_match [] hm, lexLoop_match [] hmat,
          lexLoop_append m.suffix (pushToken [] m), lexLoop_append (m.suffix ++ c :: r),
          ih _ hlt m.suffix rfl, List.append_assoc]
        rfl

/-- C14: for all texts `s1`, `s2` and every character `c` outside the token
alphabet `[a-zA-Z0-9_=+<]`, `lexer` on `s1`, `c`, `s2` gives the tokens of
`lexer s1` without its final end marker, followed by those of `lexer s2`. -/
theorem lexer_compositional (s1 s2 : String) (c : Char) (hc : isTokenChar c = false) :
    lexer (s1 ++ String.singleton c ++ s2) = (lexer s1).dropLast ++ lexer s2 := by
  have hdata : (s1 ++ String.singleton c ++ s2).toList = s1.toList ++ c :: s2.toList := by
    simp [String.toList]
  rw [lexer, hdata, lexLoop_append_cut hc, lexer, lexer, List.dropLast_concat,
    List.append_assoc]

/-- C14 on "a", a semicolon and "b". -/
theorem lexer_compositional_witness :
    isTokenChar ';' = false ∧
      lexer ("a" ++ String.singleton ';' ++ "b") = (lexer "a").dropLast ++ lexer "b" :=
  ⟨by decide, lexer_compositional "a" "b" ';' (by decide)⟩

/-! ## A keyword at the scan position -/

/-- Where the input starts with a keyword, the pattern matches that keyword
through group 1, whatever follows. -/
theorem matchAt_keyword (k : String) (hk : k ∈ keywords) (r : List Char) :
    matchAt (k.toList ++ r) = some ⟨k.toList, [], [], [], r⟩ := by
  simp only [keywords, List.mem_cons, List.mem_singleton, List.not_mem_nil, or_false] at hk
  rcases hk with rfl | rfl | rfl
  · show matchAt ('i' :: 'n' :: 't' :: r) = _
    simp [matchAt, matchKeyword, List.isPrefixOf]
  · show matchAt ('f' :: 'l' :: 'o' :: 'a' :: 't' :: r) = _
    simp [matchAt, matchKeyword, List.isPrefixOf]
  · show matchAt ('i' :: 'f' :: r) = _
    simp [matchAt, matchKeyword, List.isPrefixOf]

/-- C15: for each keyword `k` of "int", "float", "if" and every text `r`,
`lexer` on `k` followed by `r` gives the `DATA_TYPE` token `k` and then the
tokens of `lexer r`; so no `IDENTIFIER` token of any output begins with a
keyword, and "iffy" lexes to the `DATA_TYPE` token "if", the `IDENTIFIER`
token "fy" and the end marker. -/
theorem lexer_keyword_split :
    (∀ k : String, k ∈ keywords → ∀ r : String,
      lexer (k ++ r) = ⟨TokenType.DATA_TYPE, k⟩ :: lexer r) ∧
    (∀ (s : String) (t : Token), t ∈ lexer s → t.type = TokenType.IDENTIFIER →
      beginsWithKeyword t.value = false) ∧
    lexer "iffy" = [⟨TokenType.DATA_TYPE, "if"⟩, ⟨TokenType.IDENTIFIER, "fy"⟩,
      ⟨TokenType.EOF_TOK, ""⟩] := by
  refine ⟨?_, ?_, ?_⟩
  · intro k hk r
    have hm := matchAt_keyword k hk r.toList
    have hne : k.toList ≠ [] := by
      simp only [keywords, List.mem_cons, List.mem_singleton, List.not_mem_nil,
        or_false] at hk
      rcases hk with rfl | rfl | rfl <;> decide
    have hpush : pushToken [] ⟨k.toList, [], [], [], r.toList⟩ =
        [⟨TokenType.DATA_TYPE, k⟩] := by
      obtain ⟨ks⟩ := k
      simp only [pushToken, String.toList]
      rw [if_pos (by simpa using hne)]
      rfl
    have hdata : (k ++ r).toList = k.toList ++ r.toList := by
      simp [String.toList]
    rw [lexer, hdata, lexLoop_match [] hm, lexLoop_append, hpush, lexer]
    rfl
  · intro s t ht hty
    rw [lexer, List.mem_append] at ht
    rcases ht with ht | ht
    · exact ((lexLoop_shape s.toList t ht).2.1 hty).2
    · rw [List.mem_singleton] at ht
      subst ht
      cases hty
  · unfold lexer
    rw [lexLoop_some [] (by rfl), lexLoop_some _ (by rfl), lexLoop_none _ (by rfl)]
    rfl

end Soar
